import Mathlib

/-!
# Shallow embedding of the `Django-signals_orm-0x04/messaging` core

This file embeds the data model and the operations of the messaging core
(`messaging/models.py`, `messaging/signals.py`, `messaging/managers.py`,
`messaging/views.py`) as executable Lean definitions and proves properties
about them.

The database is modelled as lists of rows kept in insertion order (every
insert appends at the end); `order_by` on a queryset is modelled as a stable
sort of that list, so rows with equal sort keys keep insertion order, and
auto-increment ids grow along each list.  Django signal handlers are inlined
at their firing points: `pre_save` / `post_save` logic is part of the save
and create operations, `post_delete` logic part of the delete operation.
-/

namespace Messaging

/-- A row of `auth_user` as seen by the messaging app (`User` is external;
only id and username are read by the core). -/
structure UserRow where
  id : Nat
  username : String
deriving DecidableEq, Repr

/-- A row of `messaging_message` (`models.py`, class `Message`).
`timestamp`, `editedAt` are instants modelled as naturals. -/
structure MessageRow where
  id : Nat
  senderId : Nat
  receiverId : Nat
  parentId : Option Nat
  content : String
  timestamp : Nat
  isRead : Bool
  edited : Bool
  editedAt : Option Nat
deriving DecidableEq, Repr

/-- A row of `messaging_messagehistory` (`models.py`, class `MessageHistory`).
The `edited_by` FK is declared without `null=True`, hence `editedById : Nat`. -/
structure HistoryRow where
  id : Nat
  messageId : Nat
  oldContent : String
  editedById : Nat
  editedAt : Nat
  version : Nat
deriving DecidableEq, Repr

/-- A row of `messaging_notification` (`models.py`, class `Notification`).
`messageId` is an `Option` because the in-memory object may carry
`message=None` (as `create_system_notification` does); whether such a row can
actually be inserted is governed by `notificationMessageNullOk` below. -/
structure NotificationRow where
  id : Nat
  userId : Nat
  messageId : Option Nat
  notificationType : String
  title : String
  content : String
  isRead : Bool
  createdAt : Nat
deriving DecidableEq, Repr

/-- The database: one list per table, in insertion order, plus the
auto-increment counters. -/
structure DB where
  users : List UserRow
  messages : List MessageRow
  histories : List HistoryRow
  notifications : List NotificationRow
  nextMessageId : Nat
  nextHistoryId : Nat
  nextNotificationId : Nat
deriving DecidableEq, Repr

/-- Row lookup `Message.objects.get(pk=...)` or FK dereference by id: first row
with the given id (unique when ids are nodup). -/
def findMsg (msgs : List MessageRow) (mid : Nat) : Option MessageRow :=
  msgs.find? (fun r => r.id == mid)

/-- Username lookup (`instance.sender.username`). -/
def usernameOf (db : DB) (uid : Nat) : String :=
  match db.users.find? (fun u => u.id == uid) with
  | some u => u.username
  | none => ""

/-! ## Edit-Interceptor: `signals.log_message_edit_history` (pre_save) -/

/-- One step of the maximal-version scan: keep the earliest-inserted row of
the largest version seen so far. -/
def lastStep (acc : Option HistoryRow) (h : HistoryRow) : Option HistoryRow :=
  match acc with
  | none => some h
  | some a => if h.version > a.version then some h else some a

/-- The queryset `MessageHistory.objects.filter(message=instance).order_by("-version").first()`:
the earliest-inserted row of maximal version among the history rows of the message
(descending stable sort, then head). -/
def lastHistory (histories : List HistoryRow) (msgId : Nat) : Option HistoryRow :=
  (histories.filter (fun h => h.messageId == msgId)).foldl lastStep none

/-- Computation `next_version = (last_history.version + 1) if last_history else 1`
(`signals.py` line 77). -/
def nextVersion (histories : List HistoryRow) (msgId : Nat) : Nat :=
  match lastHistory histories msgId with
  | some h => h.version + 1
  | none => 1

/-- A full `save()` of an existing `Message` instance that was loaded from the
database and whose `content` field was set to `newContent`; `editedBy` models
the optional `_edited_by` attribute.  The `pre_save` handler
`log_message_edit_history` (`signals.py` lines 52-95) is inlined: it looks up
the persisted row, and when the persisted content differs from the new one it
appends a `MessageHistory` row with the next version number and marks the
in-flight instance edited; the save then writes the fields of the instance.  When
the persisted row cannot be found the handler degrades to a no-op. -/
def saveMessageContent (db : DB) (msgId : Nat) (newContent : String)
    (editedBy : Option Nat) (now : Nat) : DB :=
  match findMsg db.messages msgId with
  | none => db
  | some old =>
    if old.content != newContent then
      { db with
        messages := db.messages.map (fun r =>
          if r.id == msgId then
            { r with content := newContent, edited := true, editedAt := some now }
          else r),
        histories := db.histories ++
          [{ id := db.nextHistoryId, messageId := msgId, oldContent := old.content,
             editedById := editedBy.getD old.senderId, editedAt := now,
             version := nextVersion db.histories msgId }],
        nextHistoryId := db.nextHistoryId + 1 }
    else
      db

/-- Apply a sequence of edits `(newContent, editedBy, now)` to one message,
each via `saveMessageContent`. -/
def applyEdits (db : DB) (msgId : Nat) : List (String × Option Nat × Nat) → DB
  | [] => db
  | (c, e, t) :: rest => applyEdits (saveMessageContent db msgId c e t) msgId rest

/-! ## Notification-Dispatcher: `signals.create_message_notification` -/

/-- Per `models.py` lines 213-218, the `message` FK of `Notification` carries no
`null=True`, so the database column is NOT NULL. -/
def notificationMessageNullOk : Bool := false

/-- Insertion `Notification.objects.create(...)` of a notification row.  The
insert fails with an integrity error when `message` is `None` and the column
forbids NULL (which it does, see `notificationMessageNullOk`). -/
def notificationInsert (db : DB) (userId : Nat) (messageId : Option Nat)
    (ntype title content : String) (now : Nat) : Except String DB :=
  if messageId.isNone && !notificationMessageNullOk then
    .error "IntegrityError: NOT NULL constraint failed: messaging_notification.message_id"
  else
    .ok { db with
      notifications := db.notifications ++
        [{ id := db.nextNotificationId, userId := userId, messageId := messageId,
           notificationType := ntype, title := title, content := content,
           isRead := false, createdAt := now }],
      nextNotificationId := db.nextNotificationId + 1 }

/-- The truncated preview used in the notification body
(`signals.py` line 22): `instance.content[:50]` plus an ellipsis marker when
`len(instance.content) > 50`. -/
def notifPreview (content : String) : String :=
  content.take 50 ++ (if content.length > 50 then "..." else "")

/-- Creation `Message.objects.create(...)`: insert the message row (defaults:
`is_read=False`, `edited=False`, `edited_at=None`), then run the `post_save`
handlers with `created=True`: `create_message_notification` (`signals.py`
lines 8-31) inserts one notification for the receiver — its `message` FK is
the fresh message, never `None`, so the insert always succeeds and is inlined
directly — and `mark_message_as_unread` (lines 34-49), which re-saves only
when the fresh row arrived with `is_read=True` (it never does here, the
default is used). -/
def createMessage (db : DB) (senderId receiverId : Nat) (parentId : Option Nat)
    (content : String) (now : Nat) : DB :=
  let mid := db.nextMessageId
  let row : MessageRow :=
    { id := mid, senderId := senderId, receiverId := receiverId,
      parentId := parentId, content := content, timestamp := now,
      isRead := false, edited := false, editedAt := none }
  let db1 := { db with messages := db.messages ++ [row], nextMessageId := mid + 1 }
  { db1 with
    notifications := db1.notifications ++
      [{ id := db1.nextNotificationId, userId := receiverId, messageId := some mid,
         notificationType := "message",
         title := "New message from " ++ usernameOf db1 senderId,
         content := "You have received a new message: \x27" ++ notifPreview content ++ "\x27",
         isRead := false, createdAt := now }],
    nextNotificationId := db1.nextNotificationId + 1 }

/-- Function `signals.create_system_notification` (lines 98-116): a notification with
`message=None` and `notification_type="system"`. -/
def create_system_notification (db : DB) (uid : Nat) (title content : String)
    (now : Nat) : Except String DB :=
  notificationInsert db uid none "system" title content now

/-! ## `Message.mark_as_edited` and the Unread-Query-Service -/

/-- Method `Message.mark_as_edited` (`models.py` lines 97-101): sets `edited=True`
and `edited_at=now` on the loaded instance and saves with
`update_fields=["edited", "edited_at"]`.  The `pre_save` handler fires but
creates no history row: the content of the instance equals the persisted content,
so the content-changed branch is not taken; the update then writes only the
two listed fields. -/
def mark_as_edited (db : DB) (msgId : Nat) (now : Nat) : DB :=
  { db with
    messages := db.messages.map (fun r =>
      if r.id == msgId then { r with edited := true, editedAt := some now } else r) }

/-- Python truthiness of the `message_ids` argument (`if message_ids:`):
true only for a provided, non-empty list. -/
def idsTruthy : Option (List Nat) → Bool
  | none => false
  | some l => !l.isEmpty

/-- The row predicate of `UnreadMessagesManager.mark_as_read_for_user`
(`models.py` lines 34-43, `managers.py` lines 54-74): receiver matches, still
unread, and — only when a non-empty id list was supplied — the id is in the
list. -/
def markReadCond (uid : Nat) (messageIds : Option (List Nat)) (r : MessageRow) : Bool :=
  r.receiverId == uid && r.isRead == false &&
    (if idsTruthy messageIds then (messageIds.getD []).contains r.id else true)

/-- Manager method `UnreadMessagesManager.mark_as_read_for_user`: a bulk
`queryset.update(is_read=True)`; returns the new database and the number of
rows the UPDATE touched.  Bulk updates bypass `save()` and hence all signal
handlers. -/
def mark_as_read_for_user (db : DB) (uid : Nat) (messageIds : Option (List Nat)) :
    DB × Nat :=
  ({ db with
      messages := db.messages.map (fun r =>
        if markReadCond uid messageIds r then { r with isRead := true } else r) },
   (db.messages.filter (markReadCond uid messageIds)).length)

/-! ## Cascade-Cleaner: user deletion and `signals.cleanup_user_data` -/

/-- One step of the delete collector for the `parent_message` self-FK
(`on_delete=CASCADE`): add every message whose parent is already dead. -/
def deadClosure (msgs : List MessageRow) (seed : List Nat) : Nat → List Nat
  | 0 => seed
  | n + 1 =>
    let s := deadClosure msgs seed n
    s ++ (msgs.filter (fun r =>
      !s.contains r.id &&
        (match r.parentId with
         | some p => s.contains p
         | none => false))).map (fun r => r.id)

/-- Deleting a set of messages (a queryset `.delete()`): the delete cascades
through the `parent_message` self-FK to all transitive replies, and takes the
`MessageHistory` and `Notification` rows of the dead messages with it
(`message` FKs are `on_delete=CASCADE`). -/
def messagesDelete (db : DB) (ids : List Nat) : DB :=
  let dead := deadClosure db.messages ids db.messages.length
  { db with
    messages := db.messages.filter (fun r => !dead.contains r.id),
    histories := db.histories.filter (fun h => !dead.contains h.messageId),
    notifications := db.notifications.filter (fun n =>
      match n.messageId with
      | some m => !dead.contains m
      | none => true) }

/-- Queryset `.exclude(cond)`: keep the rows not satisfying `cond`. -/
def qExclude (l : List HistoryRow) (cond : HistoryRow → Bool) : List HistoryRow :=
  l.filter (fun h => !cond h)

/-- The `edited_by__isnull` lookup on a `MessageHistory` row: the `edited_by`
FK is declared without `null=True`, so it is never NULL. -/
def historyEditedByIsNull (_h : HistoryRow) : Bool := false

/-- The queryset `MessageHistory.objects.filter(edited_by_id=instance.id)
.exclude(edited_by__isnull=False)` of `signals.py` lines 190-192. -/
def orphaned_histories (db : DB) (uid : Nat) : List HistoryRow :=
  qExclude (db.histories.filter (fun h => h.editedById == uid))
    (fun h => historyEditedByIsNull h == false)

/-- The `post_delete` handler `cleanup_user_data` (`signals.py` lines
145-213): delete the messages sent by the deleted user, then the messages they
received (the second queryset is evaluated lazily, after the first delete),
then delete the `orphaned_histories` queryset if it is non-empty.  The prints
and the catch-all logging have no state effect and are omitted; in this pure
model no exception can arise, so the handler always completes. -/
def cleanup_user_data (db : DB) (uid : Nat) : DB :=
  let sentIds := (db.messages.filter (fun r => r.senderId == uid)).map (fun r => r.id)
  let db1 := messagesDelete db sentIds
  let recvIds := (db1.messages.filter (fun r => r.receiverId == uid)).map (fun r => r.id)
  let db2 := messagesDelete db1 recvIds
  let orphaned := orphaned_histories db2 uid
  if !orphaned.isEmpty then
    { db2 with
      histories := db2.histories.filter (fun h =>
        !(orphaned.map (fun o => o.id)).contains h.id) }
  else
    db2

/-- Deletion `user.delete()`: the Django delete collector first cascades over every FK
to `User` — messages where the user is sender or receiver (and, through the
`parent_message` self-FK, all their transitive replies, together with those
history and notification rows of those messages), history rows the user authored
(`edited_by`), and notifications targeted at the user — then removes the user
row and fires the `post_delete` handler `cleanup_user_data`. -/
def userDelete (db : DB) (uid : Nat) : DB :=
  let seed := (db.messages.filter (fun r =>
    r.senderId == uid || r.receiverId == uid)).map (fun r => r.id)
  let dead := deadClosure db.messages seed db.messages.length
  let db1 : DB :=
    { db with
      users := db.users.filter (fun u => !(u.id == uid)),
      messages := db.messages.filter (fun r => !dead.contains r.id),
      histories := db.histories.filter (fun h =>
        !dead.contains h.messageId && !(h.editedById == uid)),
      notifications := db.notifications.filter (fun n =>
        !(n.userId == uid) &&
          (match n.messageId with
           | some m => !dead.contains m
           | none => true)) }
  cleanup_user_data db1 uid

/-! ## Thread-Reconstructor: `Message.get_thread_root` and
`Message.get_all_replies_recursive` -/

/-- Method `Message.get_thread_root` (`models.py` lines 148-152): follow the
`parent_message` FK upward until a message with no parent is reached.  The
Python recursion is unbounded; the embedding carries explicit fuel, and the
theorems show any fuel at or above the rank of the starting message suffices.  A
dangling parent id (impossible under FK integrity) stops the walk. -/
def get_thread_root (msgs : List MessageRow) : Nat → MessageRow → MessageRow
  | 0, m => m
  | fuel + 1, m =>
    match m.parentId with
    | none => m
    | some pid =>
      match findMsg msgs pid with
      | some p => get_thread_root msgs fuel p
      | none => m

/-- Stable insertion of a row into a list already sorted by `timestamp`:
the new row goes after every row whose timestamp is `≤` its own. -/
def insertByTs (x : MessageRow) : List MessageRow → List MessageRow
  | [] => [x]
  | y :: ys => if y.timestamp ≤ x.timestamp then y :: insertByTs x ys else x :: y :: ys

/-- Queryset ordering `order_by(timestamp)`: a stable sort of the rows in table (insertion)
order, so equal timestamps keep insertion order. -/
def sortByTs (l : List MessageRow) : List MessageRow :=
  l.foldl (fun acc x => insertByTs x acc) []

/-- The queryset `message.replies` ordered by `order_by(timestamp)`: the direct replies of `m`,
in timestamp order. -/
def childrenOf (msgs : List MessageRow) (m : MessageRow) : List MessageRow :=
  sortByTs (msgs.filter (fun r => r.parentId == some m.id))

/-- One node of the nested reply tree: the dict
with keys message, depth and replies built by
`get_all_replies_recursive`. -/
structure ReplyNode where
  message : MessageRow
  depth : Nat
  replies : List ReplyNode
deriving Repr

/-- The inner `get_replies_tree(message, depth)` of
`Message.get_all_replies_recursive` (`models.py` lines 125-142): list the
direct replies in timestamp order and recurse, children tagged `depth`,
grandchildren `depth + 1`.  Fuel bounds the recursion depth of the embedding;
the theorems show any fuel at or above the height of the forest suffices. -/
def get_replies_tree (msgs : List MessageRow) : Nat → MessageRow → Nat → List ReplyNode
  | 0, _, _ => []
  | fuel + 1, m, depth =>
    (childrenOf msgs m).map (fun c =>
      { message := c, depth := depth, replies := get_replies_tree msgs fuel c (depth + 1) })

/-- Method `Message.get_all_replies_recursive`: the tree build started at depth 0. -/
def get_all_replies_recursive (msgs : List MessageRow) (fuel : Nat) (m : MessageRow) :
    List ReplyNode :=
  get_replies_tree msgs fuel m 0

/-! ## View layer: `views.thread_view` / `views.get_thread_json` access check -/

/-- Errors surfaced by the thread views. -/
inductive ViewError where
  | notFound
  | permissionDenied
deriving DecidableEq, Repr

/-- View `views.thread_view` (lines 218-270) and the identically structured
`views.get_thread_json` (lines 412-480): look the message up
(`get_object_or_404`), raise `PermissionDenied` when the requesting user is
neither sender nor receiver, and only then walk to the thread root and build
the nested reply tree. -/
def thread_view (db : DB) (userId msgId : Nat) :
    Except ViewError (MessageRow × List ReplyNode) :=
  match findMsg db.messages msgId with
  | none => .error .notFound
  | some m =>
    if !(userId == m.senderId || userId == m.receiverId) then
      .error .permissionDenied
    else
      let root := get_thread_root db.messages db.messages.length m
      .ok (root, get_replies_tree db.messages db.messages.length root 0)

/-! ## Invariants -/

/-- The C1 biconditional: a message is flagged `edited` iff at least one
`MessageHistory` row references it. -/
def EditedIffHistory (db : DB) : Prop :=
  ∀ m ∈ db.messages, (m.edited = true ↔ ∃ h ∈ db.histories, h.messageId = m.id)

/-- The history rows of one message, in insertion (creation) order. -/
def historiesFor (db : DB) (msgId : Nat) : List HistoryRow :=
  db.histories.filter (fun h => h.messageId == msgId)

/-! ## Specification vocabulary for the reply tree -/

/-- All messages stored in a reply forest, in preorder: the node, then its
subtree, then the later siblings. -/
def flattenForest : List ReplyNode → List MessageRow
  | [] => []
  | ⟨m, _, rs⟩ :: rest => m :: (flattenForest rs ++ flattenForest rest)

/-- Proper-descendant relation: `r` is a proper descendant of `m` in the reply
forest, i.e. reachable
from `m` by one or more `parent_message` links pointing upward. -/
inductive Desc (msgs : List MessageRow) : MessageRow → MessageRow → Prop where
  | child {m r : MessageRow} : r ∈ msgs → r.parentId = some m.id → Desc msgs m r
  | step {m c r : MessageRow} : c ∈ msgs → c.parentId = some m.id → Desc msgs c r →
      Desc msgs m r

/-- The per-level ordering key the spec asks for: timestamp ascending, ties
broken by id (insertion order). -/
def TsIdKey (a b : MessageRow) : Prop :=
  a.timestamp < b.timestamp ∨ (a.timestamp = b.timestamp ∧ a.id < b.id)

/-- Every level of the forest is sorted by `TsIdKey`. -/
inductive LevelsOrdered : List ReplyNode → Prop where
  | mk {l : List ReplyNode} :
      l.Pairwise (fun a b => TsIdKey a.message b.message) →
      (∀ n ∈ l, LevelsOrdered n.replies) → LevelsOrdered l

/-- Every node of the forest at top level carries depth `d`, its children
`d + 1`, and so on. -/
inductive DepthsFrom : Nat → List ReplyNode → Prop where
  | mk {d : Nat} {l : List ReplyNode} :
      (∀ n ∈ l, n.depth = d) → (∀ n ∈ l, DepthsFrom (d + 1) n.replies) →
      DepthsFrom d l

/-- Upward reachability: `root` is reachable from `m` by following
`parent_message` links upward
zero or more times. -/
inductive ReachesUp (msgs : List MessageRow) : MessageRow → MessageRow → Prop where
  | refl (m : MessageRow) : ReachesUp msgs m m
  | step {m p root : MessageRow} : m.parentId = some p.id → p ∈ msgs →
      ReachesUp msgs p root → ReachesUp msgs m root

/-- Executable check that every stored parent reference resolves to a stored
row whose id has strictly smaller rank. -/
def parentRankedB (msgs : List MessageRow) (rk : Nat → Nat) : Bool :=
  msgs.all (fun r =>
    match r.parentId with
    | some pid => msgs.any (fun p => p.id == pid && rk pid < rk r.id)
    | none => true)

/-- A finite acyclic reply forest, witnessed by a rank function on ids:
every stored parent reference resolves to a stored row of strictly smaller
rank.  (A forest in which no message is its own transitive ancestor always
admits such a rank, e.g. its depth.) -/
def ParentRanked (msgs : List MessageRow) (rk : Nat → Nat) : Prop :=
  parentRankedB msgs rk = true

/-- Executable check that a run of contents is stepwise distinct: each entry
differs from the one before it, the run starting from `cur`. -/
def distinctSteps : String → List String → Bool
  | _, [] => true
  | cur, c :: rest => cur != c && distinctSteps c rest

/-- The `(version, old_content)` pairs produced by a run of successive edits:
starting at version `v` with persisted content `cur`, each edit to a next
content stores the content it overwrote. -/
def expectedPairs (v : Nat) (cur : String) : List String → List (Nat × String)
  | [] => []
  | c :: rest => (v, cur) :: expectedPairs (v + 1) c rest

/-- Every field of a message row except `is_read` — the footprint that a pure
read-state toggle must leave unchanged. -/
def nonReadFields (r : MessageRow) :
    Nat × Nat × Nat × Option Nat × String × Nat × Bool × Option Nat :=
  (r.id, r.senderId, r.receiverId, r.parentId, r.content, r.timestamp,
   r.edited, r.editedAt)

/-! ## Concrete sample data used by counterexamples and witnesses -/

/-- Two registered users. -/
def baseUsers : List UserRow := [{ id := 1, username := "alice" }, { id := 2, username := "bob" }]

/-- A fresh database. -/
def emptyDB : DB :=
  { users := baseUsers, messages := [], histories := [], notifications := [],
    nextMessageId := 1, nextHistoryId := 1, nextNotificationId := 1 }

/-- The state after user 1 sends "Hello" to user 2. -/
def helloDB : DB := createMessage emptyDB 1 2 none "Hello" 10

/-- State of `helloDB` after the message was edited once with `_edited_by` set to the
third party 3. -/
def editedByThirdDB : DB := saveMessageContent helloDB 1 "Hi" (some 3) 30

/-- A state in which a `MessageHistory` row authored by user 7 still exists
while the `post_delete` cleanup for user 7 runs: one message between users 1
and 2, one history row with `edited_by_id = 7`. -/
def strayHistoryDB : DB :=
  { users := baseUsers,
    messages := [{ id := 1, senderId := 1, receiverId := 2, parentId := none,
                   content := "Hello", timestamp := 10, isRead := false,
                   edited := true, editedAt := some 30 }],
    histories := [{ id := 1, messageId := 1, oldContent := "old", editedById := 7,
                    editedAt := 30, version := 1 }],
    notifications := [], nextMessageId := 2, nextHistoryId := 2,
    nextNotificationId := 1 }

/-- A small reply forest: root 1, replies 2 and 3 with equal timestamps,
and 4 a reply to 2. -/
def forestMsgs : List MessageRow :=
  [{ id := 1, senderId := 1, receiverId := 2, parentId := none, content := "root",
     timestamp := 10, isRead := false, edited := false, editedAt := none },
   { id := 2, senderId := 2, receiverId := 1, parentId := some 1, content := "A",
     timestamp := 20, isRead := false, edited := false, editedAt := none },
   { id := 3, senderId := 1, receiverId := 2, parentId := some 1, content := "B",
     timestamp := 20, isRead := false, edited := false, editedAt := none },
   { id := 4, senderId := 2, receiverId := 1, parentId := some 2, content := "C",
     timestamp := 30, isRead := false, edited := false, editedAt := none }]

/-- The forest packaged as a database, for the view-layer theorems. -/
def forestDB : DB :=
  { users := baseUsers, messages := forestMsgs, histories := [],
    notifications := [], nextMessageId := 5, nextHistoryId := 1,
    nextNotificationId := 1 }

/-! ## General lemmas about the embedded operations -/

/-- The predicate of `mark_as_read_for_user`, with the Python truthiness of
the id list spelled out: an empty list restricts nothing. -/
lemma markReadCond_eq (uid : Nat) (ids : Option (List Nat)) (r : MessageRow) :
    markReadCond uid ids r =
      (r.receiverId == uid && r.isRead == false &&
        match ids with
        | some l => if l.isEmpty then true else l.contains r.id
        | none => true) := by
  cases ids with
  | none => rfl
  | some l => cases hl : l.isEmpty <;> simp [markReadCond, idsTruthy, hl]

/-- Claim C6 (code bug): the `Notification.message` column is declared without
`null=True`, so inserting the `message=None` row that
`create_system_notification` builds always fails with an integrity error —
the system-notification path of the code (and its own test asserting
`notification.message is None`) cannot succeed as the spec describes. -/
theorem system_notification_rejected (db : DB) (uid : Nat)
    (title content : String) (now : Nat) :
    create_system_notification db uid title content now =
      .error "IntegrityError: NOT NULL constraint failed: messaging_notification.message_id" := rfl

/-- Claim C7 (amended): `mark_as_read_for_user` updates exactly the rows
whose receiver is the user and that are unread, restricted to the supplied id
list only when that list is non-empty (a provided empty list behaves like no
list at all and updates every unread message of the receiver), and returns the
number of rows actually updated; non-matching rows are silently skipped. -/
theorem mark_read_semantics (db : DB) (uid : Nat) (ids : Option (List Nat)) :
    (mark_as_read_for_user db uid ids).2 =
      (db.messages.filter (fun r =>
        r.receiverId == uid && r.isRead == false &&
          match ids with
          | some l => if l.isEmpty then true else l.contains r.id
          | none => true)).length ∧
    (mark_as_read_for_user db uid ids).1.messages =
      db.messages.map (fun r =>
        if r.receiverId == uid && r.isRead == false &&
            (match ids with
             | some l => if l.isEmpty then true else l.contains r.id
             | none => true) then
          { r with isRead := true }
        else r) := by
  constructor
  · show (db.messages.filter (markReadCond uid ids)).length = _
    rw [List.filter_congr (fun r _ => markReadCond_eq uid ids r)]
  · show db.messages.map _ = _
    exact List.map_congr_left (fun r _ => by rw [markReadCond_eq])

/-- Claim C7 (counterexample): in `helloDB` user 2 has one unread message
with id 1.  Calling `mark_as_read_for_user` with the explicitly provided
empty id list still updates that message and returns 1, although the id 1 is
not a member of the empty list — the update is not restricted to the supplied
list when that list is empty, refuting the claim as stated. -/
theorem mark_read_empty_ids_counterexample :
    (mark_as_read_for_user helloDB 2 (some [])).2 = 1 ∧
      (mark_as_read_for_user helloDB 2 (some [])).1.messages.map (fun r => r.isRead) =
        [true] ∧
      ¬ (1 : Nat) ∈ ([] : List Nat) := by decide

/-- Claim C10: marking messages as read is a pure read-state toggle — it
leaves the history and notification tables (and the history id counter)
untouched and changes no message field other than `is_read`, because it is a
bulk UPDATE that bypasses the per-instance save path and hence the edit
interceptor. -/
theorem mark_read_frame (db : DB) (uid : Nat) (ids : Option (List Nat)) :
    (mark_as_read_for_user db uid ids).1.histories = db.histories ∧
    (mark_as_read_for_user db uid ids).1.notifications = db.notifications ∧
    (mark_as_read_for_user db uid ids).1.nextHistoryId = db.nextHistoryId ∧
    (mark_as_read_for_user db uid ids).1.messages.map nonReadFields =
      db.messages.map nonReadFields := by
  refine ⟨rfl, rfl, rfl, ?_⟩
  show (db.messages.map _).map _ = _
  rw [List.map_map]
  exact List.map_congr_left (fun r _ => by
    cases h : markReadCond uid ids r <;> simp [h, nonReadFields])

/-- Claim C5 (code bug): in `strayHistoryDB` a history row with
`edited_by_id = 7` exists when the `post_delete` cleanup for user 7 runs, yet
the defensive pass deletes nothing: its queryset
`filter(edited_by_id=7).exclude(edited_by__isnull=False)` is empty because the
filter keeps only rows whose `edited_by` is non-null and the exclude then
removes exactly those — the pass can never delete a `MessageHistory` row,
contrary to its own comments and log output. -/
theorem cleanup_defensive_pass_no_history_delete :
    strayHistoryDB.histories.filter (fun h => h.editedById == 7) =
      [{ id := 1, messageId := 1, oldContent := "old", editedById := 7,
         editedAt := 30, version := 1 }] ∧
    orphaned_histories strayHistoryDB 7 = [] ∧
    cleanup_user_data strayHistoryDB 7 = strayHistoryDB := by decide

/-- Claim C3: creating a message appends exactly one notification row — for
the receiver, of type message, unread, its body holding the first 50
characters of the content with an ellipsis marker appended exactly when the
content is longer than 50 characters — and subsequent saves of the message
(single or any sequence of edits) append no further notification. -/
theorem creation_notification_spec :
    (∀ db s r pid c t,
      (createMessage db s r pid c t).notifications =
        db.notifications ++
          [{ id := db.nextNotificationId, userId := r,
             messageId := some db.nextMessageId, notificationType := "message",
             title := "New message from " ++ usernameOf db s,
             content := "You have received a new message: \x27" ++ notifPreview c ++ "\x27",
             isRead := false, createdAt := t }]) ∧
    (∀ c : String, 50 < c.length → notifPreview c = c.take 50 ++ "...") ∧
    (∀ c : String, c.length ≤ 50 → notifPreview c = c) ∧
    (∀ db mid c e t, (saveMessageContent db mid c e t).notifications = db.notifications) ∧
    (∀ db mid edits, (applyEdits db mid edits).notifications = db.notifications) := by
  have hsave : ∀ db mid c e t,
      (saveMessageContent db mid c e t).notifications = db.notifications := by
    intro db mid c e t
    unfold saveMessageContent
    cases hf : findMsg db.messages mid with
    | none => rfl
    | some old => cases h : (old.content != c) <;> simp [h]
  refine ⟨fun db s r pid c t => rfl, ?_, ?_, hsave, ?_⟩
  · intro c h
    unfold notifPreview
    rw [if_pos h]
  · intro c h
    unfold notifPreview
    rw [if_neg (by omega), String.take_eq, List.take_of_length_le h]
    show String.mk c.data ++ "" = c
    simp
  · intro db mid edits
    induction edits generalizing db with
    | nil => rfl
    | cons e rest ih =>
      show (applyEdits _ _ rest).notifications = _
      rw [ih, hsave]

/-- Claim C9: `thread_view` (and the identically structured
`get_thread_json`) checks thread access before any traversal: when the
requesting user is neither sender nor receiver of the requested message the
result is `PermissionDenied` and no tree is built, and when the check passes
the traversal always completes with a result — the traversal itself never
produces `PermissionDenied`. -/
theorem thread_access_control (db : DB) (uid mid : Nat) (m : MessageRow)
    (hfind : findMsg db.messages mid = some m) :
    (uid ≠ m.senderId → uid ≠ m.receiverId →
       thread_view db uid mid = .error .permissionDenied) ∧
    (uid = m.senderId ∨ uid = m.receiverId →
       thread_view db uid mid =
         .ok (get_thread_root db.messages db.messages.length m,
              get_replies_tree db.messages db.messages.length
                (get_thread_root db.messages db.messages.length m) 0)) := by
  unfold thread_view
  rw [hfind]
  dsimp only
  constructor
  · intro h1 h2
    have hc : (!(uid == m.senderId || uid == m.receiverId)) = true := by simp [h1, h2]
    rw [if_pos hc]
  · intro h
    have hc : ¬ ((!(uid == m.senderId || uid == m.receiverId)) = true) := by
      rcases h with h | h <;> simp [h]
    rw [if_neg hc]

/-- Claim C9 (witness): in the concrete forest, user 5 is denied access to
message 2 before any traversal, while user 1 (its receiver) gets the full
thread. -/
theorem thread_access_control_witness :
    thread_view forestDB 5 2 = .error .permissionDenied ∧
    thread_view forestDB 1 2 =
      .ok (get_thread_root forestDB.messages forestDB.messages.length
             { id := 2, senderId := 2, receiverId := 1, parentId := some 1,
               content := "A", timestamp := 20, isRead := false, edited := false,
               editedAt := none },
           get_replies_tree forestDB.messages forestDB.messages.length
             (get_thread_root forestDB.messages forestDB.messages.length
               { id := 2, senderId := 2, receiverId := 1, parentId := some 1,
                 content := "A", timestamp := 20, isRead := false, edited := false,
                 editedAt := none }) 0) := by
  constructor
  · exact (thread_access_control forestDB 5 2
      { id := 2, senderId := 2, receiverId := 1, parentId := some 1, content := "A",
        timestamp := 20, isRead := false, edited := false, editedAt := none }
      (by decide)).1 (by decide) (by decide)
  · exact (thread_access_control forestDB 1 2
      { id := 2, senderId := 2, receiverId := 1, parentId := some 1, content := "A",
        timestamp := 20, isRead := false, edited := false, editedAt := none }
      (by decide)).2 (Or.inr (by decide))

/-- Claim C3 (witness): concrete instances — the notification created for the
hello message, the 51-character content that gets the ellipsis marker, and the
short content that is reproduced unchanged. -/
theorem creation_notification_spec_witness :
    (createMessage emptyDB 1 2 none "Hello" 10).notifications =
      emptyDB.notifications ++
        [{ id := emptyDB.nextNotificationId, userId := 2,
           messageId := some emptyDB.nextMessageId, notificationType := "message",
           title := "New message from " ++ usernameOf emptyDB 1,
           content := "You have received a new message: \x27" ++ notifPreview "Hello" ++ "\x27",
           isRead := false, createdAt := 10 }] ∧
    50 < ("012345678901234567890123456789012345678901234567890" : String).length ∧
    notifPreview "012345678901234567890123456789012345678901234567890" =
      ("012345678901234567890123456789012345678901234567890" : String).take 50 ++ "..." ∧
    notifPreview "Hello" = "Hello" :=
  ⟨creation_notification_spec.1 emptyDB 1 2 none "Hello" 10,
   by decide,
   creation_notification_spec.2.1 _ (by decide),
   creation_notification_spec.2.2.1 "Hello" (by decide)⟩

/-- Unfolding lemma: the message table after a create. -/
lemma createMessage_messages (db : DB) (s r : Nat) (pid : Option Nat) (c : String) (t : Nat) :
    (createMessage db s r pid c t).messages =
      db.messages ++
        [{ id := db.nextMessageId, senderId := s, receiverId := r, parentId := pid,
           content := c, timestamp := t, isRead := false, edited := false,
           editedAt := none }] := rfl

/-- Unfolding lemma: a create leaves the history table untouched. -/
lemma createMessage_histories (db : DB) (s r : Nat) (pid : Option Nat) (c : String) (t : Nat) :
    (createMessage db s r pid c t).histories = db.histories := rfl

/-- Unfolding lemma: a save whose new content differs from the persisted
content appends one history row (with the next version number) and rewrites
the message row. -/
lemma saveMessage_changed (db : DB) (mid : Nat) (c : String) (e : Option Nat) (t : Nat)
    (m : MessageRow) (hfind : findMsg db.messages mid = some m) (hne : m.content ≠ c) :
    saveMessageContent db mid c e t =
      { db with
        messages := db.messages.map (fun r =>
          if r.id == mid then { r with content := c, edited := true, editedAt := some t }
          else r),
        histories := db.histories ++
          [{ id := db.nextHistoryId, messageId := mid, oldContent := m.content,
             editedById := e.getD m.senderId, editedAt := t,
             version := nextVersion db.histories mid }],
        nextHistoryId := db.nextHistoryId + 1 } := by
  unfold saveMessageContent
  rw [hfind]
  dsimp only
  rw [if_pos (bne_iff_ne.mpr hne)]

/-- Unfolding lemma: a save with unchanged content is a database no-op. -/
lemma saveMessage_unchanged (db : DB) (mid : Nat) (e : Option Nat) (t : Nat)
    (m : MessageRow) (hfind : findMsg db.messages mid = some m) :
    saveMessageContent db mid m.content e t = db := by
  unfold saveMessageContent
  rw [hfind]
  dsimp only
  rw [if_neg]
  simp

/-- Claim C1 (counterexample): the biconditional edited-iff-history holds in
the reachable states `helloDB` and `editedByThirdDB`, but it is broken both by
`mark_as_edited` (which sets the flag without logging any history row) and by
deleting the third-party editor 3 (whose history row cascades away from a
message that survives with the flag still set). -/
theorem edited_iff_history_violations :
    (EditedIffHistory helloDB ∧ ¬ EditedIffHistory (mark_as_edited helloDB 1 20)) ∧
    (EditedIffHistory editedByThirdDB ∧
      ¬ EditedIffHistory (userDelete editedByThirdDB 3)) := by
  unfold EditedIffHistory
  decide

/-- Claim C1 (amended): the edited-iff-history biconditional is preserved by
message creation (for a fresh id no history row can reference), by every save
through the edit interceptor (content changed or not, message found or not),
and by the bulk read-state toggle — the operations outside the counterexample
above. -/
theorem edited_iff_history_preserved :
    (∀ db s r pid c t, (∀ h ∈ db.histories, h.messageId ≠ db.nextMessageId) →
      EditedIffHistory db → EditedIffHistory (createMessage db s r pid c t)) ∧
    (∀ db mid c e t, EditedIffHistory db →
      EditedIffHistory (saveMessageContent db mid c e t)) ∧
    (∀ db uid ids, EditedIffHistory db →
      EditedIffHistory (mark_as_read_for_user db uid ids).1) := by
  refine ⟨?_, ?_, ?_⟩
  · intro db s r pid c t hfresh hinv
    unfold EditedIffHistory at hinv ⊢
    intro m hm
    rw [createMessage_histories]
    rw [createMessage_messages] at hm
    rcases List.mem_append.mp hm with hm | hm
    · exact hinv m hm
    · rw [List.mem_singleton] at hm
      subst hm
      refine iff_of_false (by simp) ?_
      rintro ⟨h, hh, he⟩
      exact hfresh h hh he
  · intro db mid c e t hinv
    unfold EditedIffHistory at hinv ⊢
    cases hf : findMsg db.messages mid with
    | none =>
      intro m hm
      have : saveMessageContent db mid c e t = db := by
        unfold saveMessageContent; rw [hf]
      rw [this] at hm ⊢
      exact hinv m hm
    | some old =>
      by_cases hc : old.content = c
      · subst hc
        rw [saveMessage_unchanged db mid e t old hf]
        exact hinv
      · rw [saveMessage_changed db mid c e t old hf hc]
        intro m hm
        simp only [List.mem_map] at hm
        rcases hm with ⟨r, hr, rfl⟩
        cases hid : (r.id == mid) with
        | true =>
          rw [if_pos rfl]
          refine iff_of_true rfl ?_
          refine ⟨{ id := db.nextHistoryId, messageId := mid, oldContent := old.content,
                    editedById := e.getD old.senderId, editedAt := t,
                    version := nextVersion db.histories mid },
                  List.mem_append.mpr (Or.inr (List.mem_singleton.mpr rfl)), ?_⟩
          exact (beq_iff_eq.mp hid).symm
        | false =>
          rw [if_neg (by simp)]
          have hne : mid ≠ r.id := fun hh => by simp [hh] at hid
          constructor
          · intro he
            rcases (hinv r hr).mp he with ⟨h, hh, hmid⟩
            exact ⟨h, List.mem_append.mpr (Or.inl hh), hmid⟩
          · rintro ⟨h, hh, hmid⟩
            rcases List.mem_append.mp hh with hh | hh
            · exact (hinv r hr).mpr ⟨h, hh, hmid⟩
            · rw [List.mem_singleton] at hh
              subst hh
              exact absurd hmid hne
  · intro db uid ids hinv
    unfold EditedIffHistory at hinv ⊢
    intro m hm
    simp only [mark_as_read_for_user, List.mem_map] at hm
    rcases hm with ⟨r, hr, rfl⟩
    have h1 : (if markReadCond uid ids r then { r with isRead := true } else r).edited =
        r.edited := by cases markReadCond uid ids r <;> simp
    have h2 : (if markReadCond uid ids r then { r with isRead := true } else r).id =
        r.id := by cases markReadCond uid ids r <;> simp
    rw [h1, h2]
    exact hinv r hr

/-- Claim C1 (witness): the preservation theorem applied to concrete states —
a fresh database, the hello message being edited, and the hello message being
marked read. -/
theorem edited_iff_history_preserved_witness :
    EditedIffHistory (createMessage emptyDB 1 2 none "Hello" 10) ∧
    EditedIffHistory (saveMessageContent helloDB 1 "Hi" none 30) ∧
    EditedIffHistory (mark_as_read_for_user helloDB 2 none).1 :=
  ⟨edited_iff_history_preserved.1 emptyDB 1 2 none "Hello" 10 (by decide)
     (by unfold EditedIffHistory; decide),
   edited_iff_history_preserved.2.1 helloDB 1 "Hi" none 30
     (by unfold EditedIffHistory; decide),
   edited_iff_history_preserved.2.2 helloDB 2 none
     (by unfold EditedIffHistory; decide)⟩

/-- Elimination form of `ParentRanked`: a stored parent reference resolves to
a stored row of smaller rank. -/
lemma parentRanked_elim {msgs : List MessageRow} {rk : Nat → Nat}
    (h : ParentRanked msgs rk) {r : MessageRow} (hr : r ∈ msgs) {pid : Nat}
    (hp : r.parentId = some pid) :
    ∃ p ∈ msgs, p.id = pid ∧ rk pid < rk r.id := by
  unfold ParentRanked parentRankedB at h
  rw [List.all_eq_true] at h
  have := h r hr
  rw [hp] at this
  simp only [List.any_eq_true, Bool.and_eq_true, beq_iff_eq, decide_eq_true_eq] at this
  rcases this with ⟨p, hpm, hpid, hlt⟩
  exact ⟨p, hpm, hpid, hlt⟩

/-- Claim C8: in a finite acyclic forest (witnessed by a rank function),
`get_thread_root` run with any fuel at or above the rank of the starting
message reaches a stored message with no parent that is an ancestor of (or
equal to) the starting message — the Python recursion terminates with the
thread root. -/
theorem thread_root_spec (msgs : List MessageRow) (rk : Nat → Nat) (m : MessageRow)
    (fuel : Nat) (hrank : ParentRanked msgs rk) (hm : m ∈ msgs)
    (hfuel : rk m.id ≤ fuel) :
    (get_thread_root msgs fuel m).parentId = none ∧
    ReachesUp msgs m (get_thread_root msgs fuel m) ∧
    get_thread_root msgs fuel m ∈ msgs := by
  induction fuel generalizing m with
  | zero =>
    have h0 : get_thread_root msgs 0 m = m := by simp only [get_thread_root]
    rw [h0]
    refine ⟨?_, ReachesUp.refl m, hm⟩
    cases hp : m.parentId with
    | none => rfl
    | some pid =>
      rcases parentRanked_elim hrank hm hp with ⟨p, _, _, hlt⟩
      omega
  | succ fuel ih =>
    cases hp : m.parentId with
    | none =>
      have h0 : get_thread_root msgs (fuel + 1) m = m := by
        simp only [get_thread_root, hp]
      rw [h0]
      exact ⟨hp, ReachesUp.refl m, hm⟩
    | some pid =>
      rcases parentRanked_elim hrank hm hp with ⟨p, hpm, hpid, hlt⟩
      have hsome : (List.find? (fun r => r.id == pid) msgs).isSome = true := by
        rw [List.find?_isSome]
        exact ⟨p, hpm, by simp [hpid]⟩
      rcases Option.isSome_iff_exists.mp hsome with ⟨q, hq⟩
      have hqid : q.id = pid := by
        have := List.find?_some hq
        simpa using this
      have hqm : q ∈ msgs := List.mem_of_find?_eq_some hq
      have hstep : get_thread_root msgs (fuel + 1) m = get_thread_root msgs fuel q := by
        simp only [get_thread_root, hp, findMsg, hq]
      rw [hstep]
      have hres := ih q hqm (by rw [hqid]; omega)
      exact ⟨hres.1, ReachesUp.step (by rw [hp, hqid]) hqm hres.2.1, hres.2.2⟩

/-- Claim C8 (witness): from the grandchild message 4 of the concrete forest,
the walk reaches the parentless root. -/
theorem thread_root_spec_witness :
    (get_thread_root forestMsgs 4
      { id := 4, senderId := 2, receiverId := 1, parentId := some 2, content := "C",
        timestamp := 30, isRead := false, edited := false, editedAt := none }).parentId = none ∧
    ReachesUp forestMsgs
      { id := 4, senderId := 2, receiverId := 1, parentId := some 2, content := "C",
        timestamp := 30, isRead := false, edited := false, editedAt := none }
      (get_thread_root forestMsgs 4
        { id := 4, senderId := 2, receiverId := 1, parentId := some 2, content := "C",
          timestamp := 30, isRead := false, edited := false, editedAt := none }) ∧
    get_thread_root forestMsgs 4
      { id := 4, senderId := 2, receiverId := 1, parentId := some 2, content := "C",
        timestamp := 30, isRead := false, edited := false, editedAt := none } ∈ forestMsgs :=
  thread_root_spec forestMsgs (fun n => n)
    { id := 4, senderId := 2, receiverId := 1, parentId := some 2, content := "C",
      timestamp := 30, isRead := false, edited := false, editedAt := none }
    4 (by unfold ParentRanked; decide) (by decide) (by decide)

/-- Row lookup commutes with an id-preserving conditional update of the
table. -/
lemma findMsg_map_update (msgs : List MessageRow) (mid : Nat)
    (f : MessageRow → MessageRow) (hf : ∀ r, (f r).id = r.id) :
    findMsg (msgs.map (fun r => if r.id == mid then f r else r)) mid =
      (findMsg msgs mid).map f := by
  induction msgs with
  | nil => rfl
  | cons r rest ih =>
    unfold findMsg at ih ⊢
    simp only [List.map_cons, List.find?_cons]
    cases hid : (r.id == mid) with
    | true => simp [hf r, hid]
    | false =>
      simpa [hid] using ih

/-- With no history rows for the message, the next version is 1. -/
lemma nextVersion_of_filter_nil (H : List HistoryRow) (mid : Nat)
    (h : H.filter (fun x => x.messageId == mid) = []) : nextVersion H mid = 1 := by
  unfold nextVersion lastHistory
  rw [h]
  rfl

/-- Appending the row that carries the current next version bumps the next
version by one. -/
lemma nextVersion_append (H : List HistoryRow) (mid : Nat) (row : HistoryRow)
    (hrow : row.messageId = mid) (hv : row.version = nextVersion H mid) :
    nextVersion (H ++ [row]) mid = row.version + 1 := by
  unfold nextVersion lastHistory at hv ⊢
  rw [List.filter_append]
  have hfl : List.filter (fun x => x.messageId == mid) [row] = [row] := by simp [hrow]
  rw [hfl, List.foldl_append]
  simp only [List.foldl_cons, List.foldl_nil]
  cases hacc : List.foldl lastStep none (List.filter (fun x => x.messageId == mid) H) with
  | none => rfl
  | some a =>
    rw [hacc] at hv
    simp only at hv
    simp only [lastStep]
    rw [if_pos (by omega)]

/-- The maximal-version scan starting from `a` returns a row of the scanned
collection (or `a` itself) whose version bounds every scanned version. -/
lemma foldl_lastStep_spec : ∀ (l : List HistoryRow) (a : HistoryRow),
    ∃ b, List.foldl lastStep (some a) l = some b ∧ (b = a ∨ b ∈ l) ∧
      a.version ≤ b.version ∧ ∀ h ∈ l, h.version ≤ b.version := by
  intro l
  induction l with
  | nil => intro a; exact ⟨a, rfl, Or.inl rfl, Nat.le_refl _, by simp⟩
  | cons x t ih =>
    intro a
    simp only [List.foldl_cons]
    by_cases hv : x.version > a.version
    · have hst : lastStep (some a) x = some x := by simp [lastStep, hv]
      rw [hst]
      rcases ih x with ⟨b, h1, h2, h3, h4⟩
      refine ⟨b, h1, ?_, by omega, ?_⟩
      · rcases h2 with rfl | h2
        · exact Or.inr (List.mem_cons_self _ _)
        · exact Or.inr (List.mem_cons_of_mem _ h2)
      · intro h hh
        rcases List.mem_cons.mp hh with rfl | hh
        · omega
        · exact h4 h hh
    · have hst : lastStep (some a) x = some a := by simp [lastStep, hv]
      rw [hst]
      rcases ih a with ⟨b, h1, h2, h3, h4⟩
      refine ⟨b, h1, ?_, h3, ?_⟩
      · rcases h2 with rfl | h2
        · exact Or.inl rfl
        · exact Or.inr (List.mem_cons_of_mem _ h2)
      · intro h hh
        rcases List.mem_cons.mp hh with rfl | hh
        · omega
        · exact h4 h hh

/-- With at least one history row for the message, the next version is the
maximal existing version plus one. -/
lemma nextVersion_max (H : List HistoryRow) (mid : Nat)
    (hne : H.filter (fun x => x.messageId == mid) ≠ []) :
    ∃ b ∈ H.filter (fun x => x.messageId == mid),
      nextVersion H mid = b.version + 1 ∧
      ∀ h ∈ H.filter (fun x => x.messageId == mid), h.version ≤ b.version := by
  unfold nextVersion lastHistory
  cases hf : H.filter (fun x => x.messageId == mid) with
  | nil => exact absurd hf hne
  | cons x t =>
    simp only [List.foldl_cons]
    have hx : lastStep none x = some x := rfl
    rw [hx]
    rcases foldl_lastStep_spec t x with ⟨b, h1, h2, h3, h4⟩
    rw [h1]
    refine ⟨b, ?_, rfl, ?_⟩
    · rcases h2 with rfl | h2
      · exact List.mem_cons_self _ _
      · exact List.mem_cons_of_mem _ h2
    · intro h hh
      rcases List.mem_cons.mp hh with rfl | hh
      · exact h3
      · exact h4 h hh

/-- The versions of an expected edit run are consecutive starting at `v`. -/
lemma expectedPairs_fst : ∀ (l : List String) (v : Nat) (c : String),
    (expectedPairs v c l).map Prod.fst = List.range' v l.length := by
  intro l
  induction l with
  | nil => intro v c; rfl
  | cons x t ih =>
    intro v c
    simp only [expectedPairs, List.map_cons, List.length_cons, List.range'_succ]
    rw [ih]

/-- Master induction for edit runs: a sequence of stepwise-distinct edits
appends exactly one history row per edit, versions counting on from the
current next version, each row storing the content it overwrote. -/
lemma applyEdits_spec :
    ∀ (edits : List (String × Option Nat × Nat)) (db : DB) (mid : Nat) (m : MessageRow)
      (v : Nat) (done : List (Nat × String)),
      findMsg db.messages mid = some m →
      nextVersion db.histories mid = v →
      (historiesFor db mid).map (fun h => (h.version, h.oldContent)) = done →
      distinctSteps m.content (edits.map (fun e => e.1)) = true →
      (historiesFor (applyEdits db mid edits) mid).map (fun h => (h.version, h.oldContent)) =
        done ++ expectedPairs v m.content (edits.map (fun e => e.1)) := by
  intro edits
  induction edits with
  | nil =>
    intro db mid m v done hfind hv hdone hdist
    simp only [applyEdits, List.map_nil, expectedPairs, List.append_nil]
    exact hdone
  | cons ed rest ih =>
    intro db mid m v done hfind hv hdone hdist
    obtain ⟨c, e, t⟩ := ed
    simp only [List.map_cons, distinctSteps, Bool.and_eq_true, bne_iff_ne] at hdist
    obtain ⟨hne, hrest⟩ := hdist
    have hsave := saveMessage_changed db mid c e t m hfind hne
    show (historiesFor (applyEdits (saveMessageContent db mid c e t) mid rest) mid).map _ = _
    have hfind2 : findMsg (saveMessageContent db mid c e t).messages mid =
        some { m with content := c, edited := true, editedAt := some t } := by
      rw [hsave]
      show findMsg (db.messages.map _) mid = _
      rw [findMsg_map_update db.messages mid
        (fun r => { r with content := c, edited := true, editedAt := some t })
        (fun r => rfl), hfind]
      rfl
    have hhist2 : (saveMessageContent db mid c e t).histories =
        db.histories ++
          [{ id := db.nextHistoryId, messageId := mid, oldContent := m.content,
             editedById := e.getD m.senderId, editedAt := t,
             version := nextVersion db.histories mid }] := by
      rw [hsave]
    have hv2 : nextVersion (saveMessageContent db mid c e t).histories mid = v + 1 := by
      rw [hhist2, nextVersion_append db.histories mid _ rfl rfl, hv]
    have hdone2 : (historiesFor (saveMessageContent db mid c e t) mid).map
        (fun h => (h.version, h.oldContent)) = done ++ [(v, m.content)] := by
      unfold historiesFor
      rw [hhist2, List.filter_append]
      have : List.filter (fun h => h.messageId == mid)
          ([{ id := db.nextHistoryId, messageId := mid, oldContent := m.content,
              editedById := e.getD m.senderId, editedAt := t,
              version := nextVersion db.histories mid }] : List HistoryRow) =
          [{ id := db.nextHistoryId, messageId := mid, oldContent := m.content,
             editedById := e.getD m.senderId, editedAt := t,
             version := nextVersion db.histories mid }] := by simp
      rw [this, List.map_append]
      unfold historiesFor at hdone
      rw [hdone, hv]
      simp
    have := ih (saveMessageContent db mid c e t) mid
      { m with content := c, edited := true, editedAt := some t } (v + 1)
      (done ++ [(v, m.content)]) hfind2 hv2 hdone2 hrest
    rw [this]
    simp [expectedPairs]

/-- Claim C2: a save with changed content appends exactly one history row
(old content = persisted content, editor = supplied editor or the sender,
version = next version) and flags the message edited with a timestamp; the
next version is 1 when no rows exist and max existing + 1 otherwise; an
unchanged-content save changes nothing; and a run of N stepwise-distinct
edits starting from a history-free message yields exactly N rows with
versions 1..N in creation order, each storing the content immediately prior
to its edit. -/
theorem edit_history_versioning :
    (∀ db mid c e t m, findMsg db.messages mid = some m → m.content ≠ c →
      (saveMessageContent db mid c e t).histories =
        db.histories ++
          [{ id := db.nextHistoryId, messageId := mid, oldContent := m.content,
             editedById := e.getD m.senderId, editedAt := t,
             version := nextVersion db.histories mid }] ∧
      (saveMessageContent db mid c e t).messages =
        db.messages.map (fun r =>
          if r.id == mid then { r with content := c, edited := true, editedAt := some t }
          else r)) ∧
    (∀ db mid e t m, findMsg db.messages mid = some m →
      saveMessageContent db mid m.content e t = db) ∧
    (∀ db mid, historiesFor db mid = [] → nextVersion db.histories mid = 1) ∧
    (∀ db mid, historiesFor db mid ≠ [] →
      ∃ b ∈ historiesFor db mid, nextVersion db.histories mid = b.version + 1 ∧
        ∀ h ∈ historiesFor db mid, h.version ≤ b.version) ∧
    (∀ db mid m edits, findMsg db.messages mid = some m →
      historiesFor db mid = [] →
      distinctSteps m.content (edits.map (fun e => e.1)) = true →
      (historiesFor (applyEdits db mid edits) mid).map (fun h => (h.version, h.oldContent)) =
        expectedPairs 1 m.content (edits.map (fun e => e.1)) ∧
      (historiesFor (applyEdits db mid edits) mid).map (fun h => h.version) =
        List.range' 1 edits.length) := by
  refine ⟨?_, ?_, ?_, ?_, ?_⟩
  · intro db mid c e t m hfind hne
    rw [saveMessage_changed db mid c e t m hfind hne]
    exact ⟨rfl, rfl⟩
  · intro db mid e t m hfind
    exact saveMessage_unchanged db mid e t m hfind
  · intro db mid h
    exact nextVersion_of_filter_nil db.histories mid h
  · intro db mid h
    exact nextVersion_max db.histories mid h
  · intro db mid m edits hfind hemp hdist
    have h1 := applyEdits_spec edits db mid m 1 [] hfind
      (nextVersion_of_filter_nil db.histories mid hemp)
      (by rw [show historiesFor db mid = [] from hemp]; rfl) hdist
    rw [List.nil_append] at h1
    refine ⟨h1, ?_⟩
    have h2 : (historiesFor (applyEdits db mid edits) mid).map (fun h => h.version) =
        ((historiesFor (applyEdits db mid edits) mid).map
          (fun h => (h.version, h.oldContent))).map Prod.fst := by
      rw [List.map_map]; rfl
    rw [h2, h1, expectedPairs_fst, List.length_map]

/-- Claim C2 (witness): the single edit of the hello message, an unchanged
save, the version bases on concrete states, and a concrete two-edit run. -/
theorem edit_history_versioning_witness :
    ((saveMessageContent helloDB 1 "Hi" (some 2) 30).histories =
        helloDB.histories ++
          [{ id := helloDB.nextHistoryId, messageId := 1, oldContent := "Hello",
             editedById := (some 2).getD 1, editedAt := 30,
             version := nextVersion helloDB.histories 1 }] ∧
      (saveMessageContent helloDB 1 "Hi" (some 2) 30).messages =
        helloDB.messages.map (fun r =>
          if r.id == 1 then { r with content := "Hi", edited := true, editedAt := some 30 }
          else r)) ∧
    saveMessageContent helloDB 1 "Hello" none 40 = helloDB ∧
    nextVersion helloDB.histories 1 = 1 ∧
    (∃ b ∈ historiesFor editedByThirdDB 1,
      nextVersion editedByThirdDB.histories 1 = b.version + 1 ∧
        ∀ h ∈ historiesFor editedByThirdDB 1, h.version ≤ b.version) ∧
    ((historiesFor (applyEdits helloDB 1 [("Hi", some 2, 30), ("Hey", none, 40)]) 1).map
        (fun h => (h.version, h.oldContent)) =
      expectedPairs 1 "Hello" ["Hi", "Hey"] ∧
     (historiesFor (applyEdits helloDB 1 [("Hi", some 2, 30), ("Hey", none, 40)]) 1).map
        (fun h => h.version) = List.range' 1 2) :=
  ⟨edit_history_versioning.1 helloDB 1 "Hi" (some 2) 30
      { id := 1, senderId := 1, receiverId := 2, parentId := none, content := "Hello",
        timestamp := 10, isRead := false, edited := false, editedAt := none }
      (by decide) (by decide),
   edit_history_versioning.2.1 helloDB 1 none 40
      { id := 1, senderId := 1, receiverId := 2, parentId := none, content := "Hello",
        timestamp := 10, isRead := false, edited := false, editedAt := none }
      (by decide),
   edit_history_versioning.2.2.1 helloDB 1 (by decide),
   edit_history_versioning.2.2.2.1 editedByThirdDB 1 (by decide),
   edit_history_versioning.2.2.2.2 helloDB 1
      { id := 1, senderId := 1, receiverId := 2, parentId := none, content := "Hello",
        timestamp := 10, isRead := false, edited := false, editedAt := none }
      [("Hi", some 2, 30), ("Hey", none, 40)] (by decide) (by decide) (by decide)⟩

/-- Stable insertion permutes to a cons. -/
lemma insertByTs_perm (x : MessageRow) (l : List MessageRow) :
    (insertByTs x l).Perm (x :: l) := by
  induction l with
  | nil => exact List.Perm.refl _
  | cons y ys ih =>
    unfold insertByTs
    by_cases h : y.timestamp ≤ x.timestamp
    · rw [if_pos h]
      exact (ih.cons y).trans (List.Perm.swap x y ys)
    · rw [if_neg h]

/-- The insertion-sort fold permutes the accumulator and the input. -/
lemma sortAux_perm : ∀ (l acc : List MessageRow),
    (List.foldl (fun a x => insertByTs x a) acc l).Perm (acc ++ l) := by
  intro l
  induction l with
  | nil => intro acc; simp
  | cons x xs ih =>
    intro acc
    simp only [List.foldl_cons]
    refine ((ih (insertByTs x acc)).trans ?_)
    refine ((insertByTs_perm x acc).append_right xs).trans ?_
    exact List.perm_middle.symm

/-- The stable sort is a permutation of its input. -/
lemma sortByTs_perm (l : List MessageRow) : (sortByTs l).Perm l := by
  simpa using sortAux_perm l []

/-- Inserting a row whose id exceeds every accumulated id into a key-sorted
accumulator keeps it key-sorted (timestamp ascending, ties by id). -/
lemma insertByTs_pairwise (x : MessageRow) (acc : List MessageRow)
    (hacc : acc.Pairwise (fun a b => TsIdKey a b)) (hx : ∀ y ∈ acc, y.id < x.id) :
    (insertByTs x acc).Pairwise (fun a b => TsIdKey a b) := by
  induction acc with
  | nil => simp [insertByTs]
  | cons y ys ih =>
    unfold insertByTs
    rcases List.pairwise_cons.mp hacc with ⟨hy, hys⟩
    by_cases h : y.timestamp ≤ x.timestamp
    · rw [if_pos h]
      refine List.pairwise_cons.mpr
        ⟨?_, ih hys (fun z hz => hx z (List.mem_cons_of_mem _ hz))⟩
      intro z hz
      have hz' := (insertByTs_perm x ys).mem_iff.mp hz
      rcases List.mem_cons.mp hz' with rfl | hz'
      · rcases Nat.lt_or_ge y.timestamp z.timestamp with hlt | hge
        · exact Or.inl hlt
        · exact Or.inr ⟨Nat.le_antisymm h hge, hx y (List.mem_cons_self _ _)⟩
      · exact hy z hz'
    · rw [if_neg h]
      have hxy : x.timestamp < y.timestamp := Nat.lt_of_not_le h
      refine List.pairwise_cons.mpr ⟨?_, hacc⟩
      intro z hz
      rcases List.mem_cons.mp hz with rfl | hz
      · exact Or.inl hxy
      · have hyz := hy z hz
        have hle : y.timestamp ≤ z.timestamp := by
          rcases hyz with h1 | ⟨h1, _⟩
          · exact Nat.le_of_lt h1
          · exact Nat.le_of_eq h1
        exact Or.inl (Nat.lt_of_lt_of_le hxy hle)

/-- The insertion-sort fold of an id-ascending input is key-sorted. -/
lemma sortAux_pairwise : ∀ (l acc : List MessageRow),
    acc.Pairwise (fun a b => TsIdKey a b) →
    (∀ y ∈ acc, ∀ x ∈ l, y.id < x.id) →
    l.Pairwise (fun a b => a.id < b.id) →
    (List.foldl (fun a x => insertByTs x a) acc l).Pairwise (fun a b => TsIdKey a b) := by
  intro l
  induction l with
  | nil => intro acc h _ _; simpa using h
  | cons x xs ih =>
    intro acc hacc hcross hl
    simp only [List.foldl_cons]
    rcases List.pairwise_cons.mp hl with ⟨hx, hxs⟩
    apply ih
    · exact insertByTs_pairwise x acc hacc
        (fun y hy => hcross y hy x (List.mem_cons_self _ _))
    · intro y hy z hz
      have hy' := (insertByTs_perm x acc).mem_iff.mp hy
      rcases List.mem_cons.mp hy' with rfl | hy'
      · exact hx z hz
      · exact hcross y hy' z (List.mem_cons_of_mem _ hz)
    · exact hxs

/-- Sorting an id-ascending table slice by timestamp yields the
timestamp-then-id order: the stable sort breaks ties by insertion id. -/
lemma sortByTs_pairwise (l : List MessageRow)
    (hl : l.Pairwise (fun a b => a.id < b.id)) :
    (sortByTs l).Pairwise (fun a b => TsIdKey a b) := by
  unfold sortByTs
  exact sortAux_pairwise l [] (by simp) (by simp) hl

/-- Membership in the children queryset: exactly the stored direct replies. -/
lemma mem_childrenOf {msgs : List MessageRow} {m c : MessageRow} :
    c ∈ childrenOf msgs m ↔ c ∈ msgs ∧ c.parentId = some m.id := by
  unfold childrenOf
  rw [(sortByTs_perm _).mem_iff, List.mem_filter]
  simp

/-- The children queryset of an id-ascending table is key-sorted. -/
lemma childrenOf_pairwise {msgs : List MessageRow} (m : MessageRow)
    (hid : msgs.Pairwise (fun a b => a.id < b.id)) :
    (childrenOf msgs m).Pairwise (fun a b => TsIdKey a b) :=
  sortByTs_pairwise _ (hid.filter _)

/-- Flattening a level built by mapping node constructors over the children. -/
lemma flattenForest_map (l : List MessageRow) (d : Nat)
    (sub : MessageRow → List ReplyNode) :
    flattenForest (l.map (fun c => ⟨c, d, sub c⟩)) =
      l.flatMap (fun c => c :: flattenForest (sub c)) := by
  induction l with
  | nil => simp [flattenForest]
  | cons c cs ih =>
    simp only [List.map_cons, flattenForest, List.flatMap_cons]
    rw [ih]
    simp

/-- Descendants are stored rows. -/
lemma desc_mem {msgs : List MessageRow} {a r : MessageRow}
    (h : Desc msgs a r) : r ∈ msgs := by
  induction h with
  | child hm hp => exact hm
  | step hc hp hd ih => exact ih

/-- Rank strictly increases along the descendant relation. -/
lemma desc_rank {msgs : List MessageRow} {rk : Nat → Nat}
    (hrank : ParentRanked msgs rk) {a r : MessageRow} (h : Desc msgs a r) :
    rk a.id < rk r.id := by
  induction h with
  | child hm hp =>
    rcases parentRanked_elim hrank hm hp with ⟨p, _, _, hlt⟩
    exact hlt
  | step hc hp hd ih =>
    rcases parentRanked_elim hrank hc hp with ⟨p, _, _, hlt⟩
    omega

/-- In an id-ascending table, the id determines the row. -/
lemma id_inj {msgs : List MessageRow}
    (hid : msgs.Pairwise (fun a b => a.id < b.id))
    {a b : MessageRow} (ha : a ∈ msgs) (hb : b ∈ msgs) (heq : a.id = b.id) :
    a = b := by
  induction msgs with
  | nil => cases ha
  | cons x xs ih =>
    rcases List.pairwise_cons.mp hid with ⟨hx, hxs⟩
    rcases List.mem_cons.mp ha with ha2 | ha2
    · rcases List.mem_cons.mp hb with hb2 | hb2
      · rw [ha2, hb2]
      · exfalso
        have hlt : x.id < b.id := hx b hb2
        rw [ha2] at heq
        omega
    · rcases List.mem_cons.mp hb with hb2 | hb2
      · exfalso
        have hlt : x.id < a.id := hx a ha2
        rw [hb2] at heq
        omega
      · exact ih hxs ha2 hb2

/-- A proper descendant has a stored parent that is the ancestor itself or a
proper descendant of it. -/
lemma desc_parent {msgs : List MessageRow} {a b : MessageRow}
    (h : Desc msgs a b) :
    a ∈ msgs → ∃ p ∈ msgs, b.parentId = some p.id ∧ (p = a ∨ Desc msgs a p) := by
  induction h with
  | child hm hp => exact fun ha => ⟨_, ha, hp, Or.inl rfl⟩
  | step hc hp hd ih =>
    intro _
    rcases ih hc with ⟨p, hpm, hpp, hor⟩
    refine ⟨p, hpm, hpp, ?_⟩
    rcases hor with rfl | hor
    · exact Or.inr (Desc.child hc hp)
    · exact Or.inr (Desc.step hc hp hor)

/-- Two ancestors of the same row are comparable: equal, or one a proper
descendant of the other (parents are unique, so upward chains coincide). -/
lemma desc_comparable {msgs : List MessageRow} {rk : Nat → Nat}
    (hid : msgs.Pairwise (fun a b => a.id < b.id)) (hrank : ParentRanked msgs rk) :
    ∀ n (x a b : MessageRow), rk x.id ≤ n → Desc msgs a x → Desc msgs b x →
      a ∈ msgs → b ∈ msgs → a = b ∨ Desc msgs a b ∨ Desc msgs b a := by
  intro n
  induction n with
  | zero =>
    intro x a b hn hax hbx ha hb
    exact absurd (desc_rank hrank hax) (by omega)
  | succ n ih =>
    intro x a b hn hax hbx ha hb
    rcases desc_parent hax ha with ⟨p, hpm, hpp, hpa⟩
    rcases desc_parent hbx hb with ⟨q, hqm, hqp, hqb⟩
    have hpq : p = q := by
      apply id_inj hid hpm hqm
      rw [hpp] at hqp
      exact Option.some.inj hqp
    subst hpq
    have hxm : x ∈ msgs := desc_mem hax
    have hrkp : rk p.id < rk x.id := by
      rcases parentRanked_elim hrank hxm hpp with ⟨w, _, hwid, hlt⟩
      exact hlt
    rcases hpa with rfl | hpa
    · rcases hqb with rfl | hqb
      · exact Or.inl rfl
      · exact Or.inr (Or.inr hqb)
    · rcases hqb with rfl | hqb
      · exact Or.inr (Or.inl hpa)
      · exact ih p a b (by omega) hpa hqb ha hb

/-- No direct reply of `m` is a proper descendant of another direct reply of
`m`: ranks forbid the resulting loop through `m`. -/
lemma no_child_desc_loop {msgs : List MessageRow} {rk : Nat → Nat}
    (hid : msgs.Pairwise (fun a b => a.id < b.id)) (hrank : ParentRanked msgs rk)
    {m u v : MessageRow} (hm : m ∈ msgs)
    (hu : u ∈ msgs) (hpu : u.parentId = some m.id)
    (_hv : v ∈ msgs) (hpv : v.parentId = some m.id)
    (hduv : Desc msgs u v) : False := by
  rcases desc_parent hduv hu with ⟨p, hpm, hpp, hor⟩
  have hpm' : p = m := by
    apply id_inj hid hpm hm
    rw [hpv] at hpp
    exact (Option.some.inj hpp).symm
  subst hpm'
  rcases hor with heq | hor
  · rcases parentRanked_elim hrank hu hpu with ⟨w, _, _, hlt⟩
    rw [heq] at hlt
    omega
  · have h1 := desc_rank hrank hor
    rcases parentRanked_elim hrank hu hpu with ⟨w, _, _, hlt⟩
    omega

/-- Subtrees hanging off distinct direct replies are disjoint (by id), the
root nodes included. -/
lemma sibling_parts_disjoint {msgs : List MessageRow} {rk : Nat → Nat}
    (hid : msgs.Pairwise (fun a b => a.id < b.id)) (hrank : ParentRanked msgs rk)
    {m c1 c2 x1 x2 : MessageRow} (hm : m ∈ msgs)
    (hc1 : c1 ∈ msgs) (hp1 : c1.parentId = some m.id)
    (hc2 : c2 ∈ msgs) (hp2 : c2.parentId = some m.id)
    (hcc : c1.id ≠ c2.id)
    (h1 : x1 = c1 ∨ Desc msgs c1 x1) (h2 : x2 = c2 ∨ Desc msgs c2 x2) :
    x1.id ≠ x2.id := by
  intro heq
  have hx1 : x1 ∈ msgs := by
    rcases h1 with rfl | h1
    · exact hc1
    · exact desc_mem h1
  have hx2 : x2 ∈ msgs := by
    rcases h2 with rfl | h2
    · exact hc2
    · exact desc_mem h2
  have hx : x1 = x2 := id_inj hid hx1 hx2 heq
  subst hx
  rcases h1 with rfl | h1
  · rcases h2 with rfl | h2
    · exact hcc rfl
    · exact no_child_desc_loop hid hrank hm hc2 hp2 hc1 hp1 h2
  · rcases h2 with rfl | h2
    · exact no_child_desc_loop hid hrank hm hc1 hp1 hc2 hp2 h1
    · rcases desc_comparable hid hrank (rk x1.id) x1 c1 c2 (Nat.le_refl _)
        h1 h2 hc1 hc2 with rfl | h | h
      · exact hcc rfl
      · exact no_child_desc_loop hid hrank hm hc1 hp1 hc2 hp2 h
      · exact no_child_desc_loop hid hrank hm hc2 hp2 hc1 hp1 h

/-- Master induction for the reply-tree build: with enough fuel the flattened
tree contains exactly the proper descendants, without duplicates, every level
sorted by timestamp with ties broken by insertion id, and depth tags counting
up from the entry depth. -/
lemma tree_spec {msgs : List MessageRow} {rk : Nat → Nat} {B : Nat}
    (hid : msgs.Pairwise (fun a b => a.id < b.id)) (hrank : ParentRanked msgs rk)
    (hbound : ∀ r ∈ msgs, rk r.id < B) :
    ∀ (fuel : Nat) (m : MessageRow) (d : Nat), m ∈ msgs → B ≤ fuel + rk m.id →
      (∀ r, r ∈ flattenForest (get_replies_tree msgs fuel m d) ↔ Desc msgs m r) ∧
      (flattenForest (get_replies_tree msgs fuel m d)).Pairwise
        (fun a b => a.id ≠ b.id) ∧
      LevelsOrdered (get_replies_tree msgs fuel m d) ∧
      DepthsFrom d (get_replies_tree msgs fuel m d) := by
  intro fuel
  induction fuel with
  | zero =>
    intro m d hm hB
    exact absurd (hbound m hm) (by omega)
  | succ fuel ih =>
    intro m d hm hB
    have htree : get_replies_tree msgs (fuel + 1) m d =
        (childrenOf msgs m).map (fun c =>
          { message := c, depth := d,
            replies := get_replies_tree msgs fuel c (d + 1) }) := by
      simp only [get_replies_tree]
    have hfuelc : ∀ c ∈ childrenOf msgs m, B ≤ fuel + rk c.id := by
      intro c hc
      rcases mem_childrenOf.mp hc with ⟨hcm, hcp⟩
      rcases parentRanked_elim hrank hcm hcp with ⟨p, _, _, hlt⟩
      omega
    rw [htree, flattenForest_map]
    refine ⟨?_, ?_, ?_, ?_⟩
    · intro r
      rw [List.mem_flatMap]
      constructor
      · rintro ⟨c, hc, hr⟩
        rcases mem_childrenOf.mp hc with ⟨hcm, hcp⟩
        rcases List.mem_cons.mp hr with rfl | hr
        · exact Desc.child hcm hcp
        · exact Desc.step hcm hcp
            (((ih c (d + 1) hcm (hfuelc c hc)).1 r).mp hr)
      · intro hr
        cases hr with
        | child hrm hrp =>
          exact ⟨r, mem_childrenOf.mpr ⟨hrm, hrp⟩, List.mem_cons_self _ _⟩
        | step hcm hcp hdc =>
          rename_i c
          have hc : c ∈ childrenOf msgs m := mem_childrenOf.mpr ⟨hcm, hcp⟩
          exact ⟨c, hc, List.mem_cons_of_mem _
            (((ih c (d + 1) hcm (hfuelc c hc)).1 r).mpr hdc)⟩
    · rw [List.pairwise_flatMap]
      constructor
      · intro c hc
        rcases mem_childrenOf.mp hc with ⟨hcm, hcp⟩
        have hsub := ih c (d + 1) hcm (hfuelc c hc)
        refine List.pairwise_cons.mpr ⟨?_, hsub.2.1⟩
        intro y hy heq
        have hdy : Desc msgs c y := (hsub.1 y).mp hy
        have hlt := desc_rank hrank hdy
        have hcy : c = y := id_inj hid hcm (desc_mem hdy) heq
        rw [hcy] at hlt
        omega
      · have hkey := childrenOf_pairwise m hid
        refine List.Pairwise.imp_of_mem ?_ hkey
        intro c1 c2 hmem1 hmem2 hk x hx y hy
        rcases mem_childrenOf.mp hmem1 with ⟨hc1m, hc1p⟩
        rcases mem_childrenOf.mp hmem2 with ⟨hc2m, hc2p⟩
        have hcc : c1.id ≠ c2.id := by
          intro hide
          have : c1 = c2 := id_inj hid hc1m hc2m hide
          subst this
          rcases hk with h | ⟨_, h⟩ <;> omega
        have hx' : x = c1 ∨ Desc msgs c1 x := by
          rcases List.mem_cons.mp hx with rfl | hx
          · exact Or.inl rfl
          · exact Or.inr (((ih c1 (d + 1) hc1m (hfuelc c1 hmem1)).1 x).mp hx)
        have hy' : y = c2 ∨ Desc msgs c2 y := by
          rcases List.mem_cons.mp hy with rfl | hy
          · exact Or.inl rfl
          · exact Or.inr (((ih c2 (d + 1) hc2m (hfuelc c2 hmem2)).1 y).mp hy)
        exact sibling_parts_disjoint hid hrank hm hc1m hc1p hc2m hc2p hcc hx' hy'
    · refine LevelsOrdered.mk ?_ ?_
      · rw [List.pairwise_map]
        exact childrenOf_pairwise m hid
      · intro n hn
        rcases List.mem_map.mp hn with ⟨c, hc, rfl⟩
        rcases mem_childrenOf.mp hc with ⟨hcm, _⟩
        exact (ih c (d + 1) hcm (hfuelc c hc)).2.2.1
    · refine DepthsFrom.mk ?_ ?_
      · intro n hn
        rcases List.mem_map.mp hn with ⟨c, hc, rfl⟩
        rfl
      · intro n hn
        rcases List.mem_map.mp hn with ⟨c, hc, rfl⟩
        rcases mem_childrenOf.mp hc with ⟨hcm, _⟩
        exact (ih c (d + 1) hcm (hfuelc c hc)).2.2.2

/-- Claim C4: for every stored message of an acyclic reply forest (ranks
witness acyclicity, the table is id-ascending in insertion order), the tree
built by `get_all_replies_recursive` contains every transitively reachable
reply exactly once (membership iff proper descendant, plus pairwise distinct
ids), each level ordered by timestamp ascending with ties broken by the
insertion id, and each node tagged with its depth, direct replies at depth
0. -/
theorem reply_tree_spec (msgs : List MessageRow) (rk : Nat → Nat) (B fuel : Nat)
    (m : MessageRow) (hid : msgs.Pairwise (fun a b => a.id < b.id))
    (hrank : ParentRanked msgs rk) (hbound : ∀ r ∈ msgs, rk r.id < B)
    (hm : m ∈ msgs) (hfuel : B ≤ fuel) :
    (∀ r, r ∈ flattenForest (get_all_replies_recursive msgs fuel m) ↔
      Desc msgs m r) ∧
    (flattenForest (get_all_replies_recursive msgs fuel m)).Pairwise
      (fun a b => a.id ≠ b.id) ∧
    LevelsOrdered (get_all_replies_recursive msgs fuel m) ∧
    DepthsFrom 0 (get_all_replies_recursive msgs fuel m) := by
  unfold get_all_replies_recursive
  exact tree_spec hid hrank hbound fuel m 0 hm (by omega)

/-- Claim C4 (witness): the concrete forest with a timestamp tie between
replies 2 and 3 and a nested reply 4. -/
theorem reply_tree_spec_witness :
    (∀ r, r ∈ flattenForest (get_all_replies_recursive forestMsgs 5
      { id := 1, senderId := 1, receiverId := 2, parentId := none, content := "root",
        timestamp := 10, isRead := false, edited := false, editedAt := none }) ↔
      Desc forestMsgs
        { id := 1, senderId := 1, receiverId := 2, parentId := none, content := "root",
          timestamp := 10, isRead := false, edited := false, editedAt := none } r) ∧
    (flattenForest (get_all_replies_recursive forestMsgs 5
      { id := 1, senderId := 1, receiverId := 2, parentId := none, content := "root",
        timestamp := 10, isRead := false, edited := false, editedAt := none })).Pairwise
      (fun a b => a.id ≠ b.id) ∧
    LevelsOrdered (get_all_replies_recursive forestMsgs 5
      { id := 1, senderId := 1, receiverId := 2, parentId := none, content := "root",
        timestamp := 10, isRead := false, edited := false, editedAt := none }) ∧
    DepthsFrom 0 (get_all_replies_recursive forestMsgs 5
      { id := 1, senderId := 1, receiverId := 2, parentId := none, content := "root",
        timestamp := 10, isRead := false, edited := false, editedAt := none }) :=
  reply_tree_spec forestMsgs (fun n => n) 5 5
    { id := 1, senderId := 1, receiverId := 2, parentId := none, content := "root",
      timestamp := 10, isRead := false, edited := false, editedAt := none }
    (by decide) (by unfold ParentRanked; decide) (by decide) (by decide) (by decide)

end Messaging
